import Mathlib

/-!
Verification development for the equipment-condition monitoring dashboard
(repository: equipment-monitoring-dashboard).

The repository consists of several Streamlit dashboard variants sharing one
logical core: normalization of raw inspection values to an ordinal health
level 1..3 (or unknown), classification of equipment by worst category level,
and worst-wins (minimum) hierarchical aggregation to system and area levels,
with date filtering and latest-per-equipment selection.

Shallow embedding conventions:
* A Python string is modelled at the code-point level as a list of naturals
  (`PyStr`); `pystr` injects Lean string literals.
* A pandas cell is `Option PyStr` (`none` = NaN/None, i.e. `pd.isna`);
  numeric cells reach `coerce_score` through `str(val)`, so modelling the
  cell by its string image is faithful.
* `float(...)` parsing is modelled by `parseFloat?`, covering the decimal
  fragment of Python float literals (optional sign, digits, optional
  fractional part).  A parsed value is carried as an exact unnormalized
  fraction (`PreRat`), whose rational value is `ratOf`; Python's `round` on
  a float is round-half-to-even, computed by `pyRoundPre` on the fraction
  and proved equal to the floor-based `pyRound` on ℚ.
* Missing values propagate as `none`; a raised Python exception is modelled
  by `Except.error`.
* In the `dashboard2.py`/`dashboard3.py` frame, a missing mapped score
  presents to `aggregate_score` as float NaN when its `*_SCORE` column also
  holds a known score (pandas upcasts an int/None column to float64), and
  as Python `None` when the column is entirely missing (object dtype).
  `PdCell` models the three presentations and `pyMinFold` models Python's
  `min`, whose comparisons against NaN are all false.
-/

namespace Dash

/-- Python string, as a sequence of Unicode code points. -/
abbrev PyStr := List Nat

/-- Inject a Lean string literal as a `PyStr`. -/
def pystr (s : String) : PyStr := s.data.map Char.toNat

/-- Model of Python `str.lower` on one code point (ASCII letters; the
labels and digits appearing in this repository are all ASCII). -/
def lowerChar (n : Nat) : Nat := if 65 ≤ n ∧ n ≤ 90 then n + 32 else n

/-- Python whitespace stripped by `str.strip()`. -/
def isPySpace (n : Nat) : Bool :=
  decide (n = 32 ∨ n = 9 ∨ n = 10 ∨ n = 13 ∨ n = 11 ∨ n = 12)

/-- Model of Python `str.lower()`. -/
def pyLower (s : PyStr) : PyStr := s.map lowerChar

/-- Model of Python `str.strip()`: drop whitespace from both ends. -/
def pyStrip (s : PyStr) : PyStr :=
  ((s.dropWhile isPySpace).reverse.dropWhile isPySpace).reverse

/-- ASCII decimal digit test. -/
def isDigitN (n : Nat) : Bool := decide (48 ≤ n ∧ n ≤ 57)

/-- Numeric value of a digit string (most significant first). -/
def digitsVal (l : PyStr) : Nat := l.foldl (fun a c => 10 * a + (c - 48)) 0

/-- An exact, possibly unnormalized fraction (numerator over positive
denominator), the result of parsing a decimal literal. -/
structure PreRat where
  num : Int
  den : Nat
  deriving DecidableEq, Repr

/-- Rational value of a parsed fraction. -/
def ratOf (p : PreRat) : ℚ := (p.num : ℚ) / (p.den : ℚ)

/-- Value of an unsigned decimal literal `intPart [ '.' fracPart ]`,
requiring at least one digit. `none` when the shape is not a literal.
(Code point 46 is the decimal point.) -/
def parseFloatCore (l : PyStr) : Option PreRat :=
  let intPart := l.takeWhile isDigitN
  match l.dropWhile isDigitN with
  | [] => if intPart = [] then none else some ⟨(digitsVal intPart : Int), 1⟩
  | c :: frac =>
      if c = 46 then
        if frac.all isDigitN && !(intPart = [] && frac = []) then
          some ⟨(digitsVal intPart * 10 ^ frac.length + digitsVal frac : Nat),
                10 ^ frac.length⟩
        else none
      else none

/-- Model of Python `float(s)` for a stripped string `s`: optional sign,
then an unsigned decimal literal.  (Code point 43 is `+`, 45 is `-`.) -/
def parseFloat? (s : PyStr) : Option PreRat :=
  match s with
  | [] => none
  | c :: rest =>
      if c = 43 then parseFloatCore rest
      else if c = 45 then (parseFloatCore rest).map (fun p => ⟨-p.num, p.den⟩)
      else parseFloatCore (c :: rest)

/-- Round half to even (the behavior of Python's `round` on a float),
stated on ℚ via the floor function. -/
def pyRound (q : ℚ) : Int :=
  let f := ⌊q⌋
  let r := q - (f : ℚ)
  if r < 1/2 then f
  else if 1/2 < r then f + 1
  else if f % 2 = 0 then f else f + 1

/-- Round half to even, computed on a fraction by integer arithmetic
(`/` and `%` on `Int` are Euclidean division, which for a positive
denominator agree with floor division). -/
def pyRoundPre (p : PreRat) : Int :=
  let d : Int := (p.den : Int)
  let f := p.num / d
  let m := p.num % d
  if 2 * m < d then f
  else if d < 2 * m then f + 1
  else if f % 2 = 0 then f else f + 1

/-- `max(1, min(3, v))` from `coerce_score`'s numeric path. -/
def clamp13 (z : Int) : Nat := (max 1 (min 3 z)).toNat

/-- The `map3` label set of `dashboard.py`'s `coerce_score`. -/
def map3 : List PyStr :=
  [pystr "3", pystr "good", pystr "normal", pystr "ok", pystr "green",
   pystr "pass", pystr "low risk", pystr "baik"]

/-- The `map2` label set of `dashboard.py`'s `coerce_score`. -/
def map2 : List PyStr :=
  [pystr "2", pystr "fair", pystr "medium", pystr "moderate", pystr "yellow",
   pystr "alert", pystr "cukup"]

/-- The `map1` label set of `dashboard.py`'s `coerce_score`. -/
def map1 : List PyStr :=
  [pystr "1", pystr "bad", pystr "poor", pystr "fail", pystr "red",
   pystr "critical", pystr "buruk", pystr "need action", pystr "action"]

/-- `dashboard.py`, `coerce_score`: map an input cell to an int 1..3 or
`None`.  NaN returns `None`; a value whose stripped string form parses as a
float is rounded and clamped into 1..3; otherwise the stripped, lowercased
text is looked up in the three label sets, with a last-resort loop comparing
against the digit strings; anything else is `None`. -/
def coerce_score (val : Option PyStr) : Option Nat :=
  match val with
  | none => none
  | some raw =>
    match parseFloat? (pyStrip raw) with
    | some p => some (clamp13 (pyRoundPre p))
    | none =>
      let s := pyLower (pyStrip raw)
      if s ∈ map3 then some 3
      else if s ∈ map2 then some 2
      else if s ∈ map1 then some 1
      else if s = pystr "1" then some 1
      else if s = pystr "2" then some 2
      else if s = pystr "3" then some 3
      else none

example : coerce_score (some (pystr " Good ")) = some 3 := by decide
example : coerce_score (some (pystr "0")) = some 1 := by decide
example : coerce_score (some (pystr "4")) = some 3 := by decide
example : coerce_score (some (pystr "2.6")) = some 3 := by decide
example : coerce_score (some (pystr "2.5")) = some 2 := by decide
example : coerce_score (some (pystr "1.5")) = some 2 := by decide
example : coerce_score (some (pystr "-7")) = some 1 := by decide
example : coerce_score (some (pystr "zzz")) = none := by decide
example : coerce_score none = none := by decide

/-- A `coerce_score` variant with the unreachable digit entries of the three
label sets and the unreachable trailing digit-fallback loop removed; used to
state that those code paths are dead (claim C10). -/
def coerce_score_reduced (val : Option PyStr) : Option Nat :=
  match val with
  | none => none
  | some raw =>
    match parseFloat? (pyStrip raw) with
    | some p => some (clamp13 (pyRoundPre p))
    | none =>
      let s := pyLower (pyStrip raw)
      if s ∈ map3.tail then some 3
      else if s ∈ map2.tail then some 2
      else if s ∈ map1.tail then some 1
      else none

/-- The four canonical category names. -/
def catVIB : PyStr := pystr "VIBRATION"

/-- Category name: oil analysis. -/
def catOIL : PyStr := pystr "OIL ANALYSIS"

/-- Category name: temperature. -/
def catTEMP : PyStr := pystr "TEMPERATURE"

/-- Category name: other inspection. -/
def catOTHER : PyStr := pystr "OTHER INSPECTION"

/-- `dashboard2.py` / `dashboard3.py`, `SCORE_MAPPINGS`: the per-category
label table.  A label mapped to `none` models a Python `None` value
(the `"not applicable"` entries). -/
def SCORE_MAPPINGS : List (PyStr × List (PyStr × Option Nat)) :=
  [(catVIB,
    [(pystr "acceptable", some 3), (pystr "excellent", some 3), (pystr "ok", some 3),
     (pystr "requires evaluation", some 2),
     (pystr "unacceptable", some 1),
     (pystr "not applicable", none)]),
   (catOIL,
    [(pystr "no action required", some 3), (pystr "ok", some 3),
     (pystr "monitor compartment", some 2), (pystr "need action", some 2),
     (pystr "urgent action required", some 1),
     (pystr "not applicable", none)]),
   (catTEMP,
    [(pystr "good", some 3),
     (pystr "warning", some 2),
     (pystr "unacceptable", some 1),
     (pystr "not applicable", none)]),
   (catOTHER,
    [(pystr "good", some 3),
     (pystr "alert", some 2),
     (pystr "need action", some 1),
     (pystr "not applicable", none)])]

/-- `dashboard2.py` / `dashboard3.py`, `map_score`: convert category text to
a numeric score.  `pd.isna(value)` returns `None`; then
`SCORE_MAPPINGS[category]` is indexed — a missing category raises `KeyError`
(modelled by `Except.error category`) — and the stripped, lowercased text is
looked up with `.get(..., None)`. -/
def map_score (value : Option PyStr) (category : PyStr) :
    Except PyStr (Option Nat) :=
  match value with
  | none => Except.ok none
  | some v =>
    match SCORE_MAPPINGS.lookup category with
    | none => Except.error category
    | some table => Except.ok ((table.lookup (pyLower (pyStrip v))).getD none)

deriving instance DecidableEq for Except

example : map_score (some (pystr " Good ")) catTEMP = .ok (some 3) := by decide
example : map_score (some (pystr "Not Applicable")) catVIB = .ok none := by decide
example : map_score (some (pystr "whatever")) catVIB = .ok none := by decide
example : map_score (some (pystr "good")) (pystr "PRESSURE")
    = .error (pystr "PRESSURE") := by decide
example : map_score none catOIL = .ok none := by decide

/-- Extract the score of a successful `map_score` application.  At every
call site in the source the category is one of the four table keys, so the
error branch is unreachable there (proved in the claim C5 theorem). -/
def getOk : Except PyStr (Option Nat) → Option Nat
  | .ok x => x
  | .error _ => none

/-- Pairwise minimum on optional scores, skipping `none`: the combining
step of pandas `min(axis=1, skipna=True)` and `groupby(...).min()`. -/
def optMin : Option Nat → Option Nat → Option Nat
  | none, b => b
  | some x, none => some x
  | some x, some y => some (min x y)

/-- pandas minimum of a collection of optional scores with `skipna=True`:
`none` only when every element is `none`. -/
def minSkipNa (l : List (Option Nat)) : Option Nat := l.foldr optMin none

/-- Python `min(subs) if subs else None` on a list of scores. -/
def pyMin : List Nat → Option Nat
  | [] => none
  | x :: xs => some (xs.foldl min x)

/-- One Scorecard row's raw cells, as consumed by the scoring logic. -/
structure ScRow where
  vib : Option PyStr
  oil : Option PyStr
  temp : Option PyStr
  other : Option PyStr
  cms : Option PyStr
  deriving DecidableEq

/-- `dashboard.py`: the four element scores
`VIBRATION_SCORE, OIL ANALYSIS_SCORE, TEMPERATURE_SCORE, OTHER INSPECTION_SCORE`
of one row, each from `coerce_score`. -/
def catScores (r : ScRow) : List (Option Nat) :=
  [coerce_score r.vib, coerce_score r.oil, coerce_score r.temp, coerce_score r.other]

/-- `dashboard.py`, `EQUIP_SCORE`:
`row_min = df[element_score_cols].min(axis=1, skipna=True)` and
`row_min.where(row_min.notna(), df[CMS_INPUT])` — the row minimum of the
element scores, falling back to `coerce_score` of the
CONDITION MONITORING SCORE cell when all four are missing. -/
def equip_score (r : ScRow) : Option Nat :=
  match minSkipNa (catScores r) with
  | some m => some m
  | none => coerce_score r.cms

/-- A cell as `aggregate_score` in `dashboard2.py`/`dashboard3.py` sees it
when `df.apply(aggregate_score, axis=1)` reads `row["VIBRATION_SCORE"]`
etc.: a known score, a float `NaN`, or a Python `None`.  Which of the two
missing representations occurs depends on the whole column (see
`presentedCell`). -/
inductive PdCell where
  | known : Nat → PdCell
  | nan : PdCell
  | pyNone : PdCell
  deriving DecidableEq, Repr

/-- Python `<` on the values `min` compares in `aggregate_score`: numeric
comparison on numbers; every comparison against `NaN` is `False`.
(`pyNone` never reaches `min`: the `is not None` filter removes it.) -/
def pdLt : PdCell → PdCell → Bool
  | PdCell.known a, PdCell.known b => decide (a < b)
  | _, _ => false

/-- Python's `min` on a nonempty list: keep the current minimum, replacing
it only when a later item compares strictly less.  Because `NaN`
comparisons are always `False`, a leading `NaN` is never replaced, while a
non-leading `NaN` never replaces anything. -/
def pyMinFold (x : PdCell) (xs : List PdCell) : PdCell :=
  xs.foldl (fun cur y => if pdLt y cur then y else cur) x

/-- `dashboard2.py` / `dashboard3.py`, `aggregate_score` on the presented
row cells: `subs = [s for s in subs if s is not None]` then
`min(subs) if subs else None`.  The `is not None` filter drops `None`
cells but keeps `NaN` cells.  No fallback to the overall score. -/
def aggregate_score (subs : List PdCell) : PdCell :=
  match subs.filter (fun c => !(c == PdCell.pyNone)) with
  | [] => PdCell.pyNone
  | x :: xs => pyMinFold x xs

/-- The known numeric values among a list of presented cells. -/
def knownVals (l : List PdCell) : List Nat :=
  l.filterMap (fun c =>
    match c with
    | PdCell.known n => some n
    | _ => none)

/-- How one mapped score presents inside its `*_SCORE` column.
`Series.apply` infers the column dtype from all results: a column mixing
ints with missing values is upcast to float64, so its missing cells
become `NaN`; a column whose results are all missing stays object dtype,
so its cells remain `None`; a cell holding a score presents as that
number either way. -/
def presentedCell (col : List (Option Nat)) (x : Option Nat) : PdCell :=
  match x with
  | some n => PdCell.known n
  | none => if col.all (fun c => c.isNone) then PdCell.pyNone else PdCell.nan

/-- One `*_SCORE` column of the `dashboard2.py`/`dashboard3.py` frame:
`df[rawCol].apply(lambda x: map_score(x, category))` before dtype
presentation. -/
def scoreColumn (rows : List ScRow) (f : ScRow → Option PyStr) (c : PyStr) :
    List (Option Nat) :=
  rows.map (fun r => getOk (map_score (f r) c))

/-- The presented `[row["VIBRATION_SCORE"], row["OIL_SCORE"],
row["TEMP_SCORE"], row["OTHER_SCORE"]]` of one row within a frame: each
cell's missing representation is decided by its whole column. -/
def subsRow (rows : List ScRow) (r : ScRow) : List PdCell :=
  [presentedCell (scoreColumn rows (fun q => q.vib) catVIB)
      (getOk (map_score r.vib catVIB)),
   presentedCell (scoreColumn rows (fun q => q.oil) catOIL)
      (getOk (map_score r.oil catOIL)),
   presentedCell (scoreColumn rows (fun q => q.temp) catTEMP)
      (getOk (map_score r.temp catTEMP)),
   presentedCell (scoreColumn rows (fun q => q.other) catOTHER)
      (getOk (map_score r.other catOTHER))]

/-- `dashboard2.py` / `dashboard3.py`, column `CALCULATED_SCORE`:
`df.apply(aggregate_score, axis=1)` at row `r` of the frame `rows`. -/
def calculated_score (rows : List ScRow) (r : ScRow) : PdCell :=
  aggregate_score (subsRow rows r)

/-- One classified equipment row as it enters hierarchical aggregation:
grouping keys and the equipment-level score. -/
structure GRow where
  area : PyStr
  system : PyStr
  score : Option Nat
  deriving DecidableEq

/-- The distinct `(AREA, SYSTEM)` pairs of the frame — the group keys of
`df.groupby(["AREA", "SYSTEM"])`. -/
def sysKeys (rows : List GRow) : List (PyStr × PyStr) :=
  (rows.map (fun r => (r.area, r.system))).dedup

/-- `dashboard.py` lines 183-186 / `dashboard2.py` line 114: the
`groupby(["AREA", "SYSTEM"]).min()` score for one `(area, system)` group
(pandas groupby-min skips NaN; NaN when all members are NaN). -/
def sys_score (rows : List GRow) (a s : PyStr) : Option Nat :=
  minSkipNa ((rows.filter (fun r => r.area = a ∧ r.system = s)).map (·.score))

/-- `dashboard.py` line 189 / `dashboard2.py` line 115: the area score
obtained by a second `groupby("AREA").min()` over the system scores. -/
def area_score_via_systems (rows : List GRow) (a : PyStr) : Option Nat :=
  minSkipNa (((sysKeys rows).filter (fun k => k.1 = a)).map
    (fun k => sys_score rows k.1 k.2))

/-- The area score computed directly: minimum over all equipment scores of
the area, NaN skipped. -/
def area_score_direct (rows : List GRow) (a : PyStr) : Option Nat :=
  minSkipNa ((rows.filter (fun r => r.area = a)).map (·.score))

/-- A record as seen by the date filter: an observation date (`none` = NaT,
an unparseable or missing date) plus an opaque payload standing for the
other columns. -/
structure DRow where
  date : Option Int
  payload : Nat
  deriving DecidableEq

/-- `dashboard.py` lines 137-138:
`mask_date = (df["DATE"] >= start) & (df["DATE"] <= end); df.loc[mask_date]`.
In pandas any comparison against NaT is `False`, so a NaT row fails the
mask. -/
def filter_by_date_range (rows : List DRow) (start stop : Int) : List DRow :=
  rows.filter (fun r =>
    match r.date with
    | none => false
    | some d => decide (start ≤ d) && decide (d ≤ stop))

/-- `dashboard3.py` lines 91-92: `fillna(0).astype(int)` applied to the
aggregated score columns for chart display. -/
def display_fill (x : Option Nat) : Nat := x.getD 0

/-- A raw row of `dashboard_pivot.py` after `to_numeric`/`to_datetime`
coercion: each of the five required fields may be missing (NaN/NaT), and
the CONDITION MONITORING SCORE is a parsed float, kept as an exact
fraction. -/
structure PRow where
  area : Option PyStr
  system : Option PyStr
  equipment : Option PyStr
  date : Option Int
  score : Option PreRat
  deriving DecidableEq

/-- A cleaned row of `dashboard_pivot.py` after `dropna` and
`astype(int)`: all fields present, score an integer. -/
structure CRow where
  area : PyStr
  system : PyStr
  equipment : PyStr
  date : Int
  score : Int
  deriving DecidableEq

/-- Truncation toward zero of a fraction, by integer division: what numpy's
float-to-int `astype(int)` does to a value. -/
def truncPre (p : PreRat) : Int := p.num.tdiv (p.den : Int)

/-- `dashboard_pivot.py` lines 92-96:
`df.dropna(subset=['AREA','SYSTEM','EQUIPMENT DESCRIPTION','DATE','SCORE'])`,
then `df["SCORE"] = df["SCORE"].astype(int)`, then
`df = df[df["SCORE"].isin([1, 2, 3])]`. -/
def pivotClean (rows : List PRow) : List CRow :=
  rows.filterMap (fun r =>
    match r.area, r.system, r.equipment, r.date, r.score with
    | some a, some s, some e, some d, some q =>
        let n := truncPre q
        if n = 1 ∨ n = 2 ∨ n = 3 then some ⟨a, s, e, d, n⟩ else none
    | _, _, _, _, _ => none)

/-- Stable insertion into a date-ascending list: the new element goes
before the first element of equal or later date.  Used to model a stable
ascending `sort_values("DATE")`. -/
def insertAsc (x : CRow) : List CRow → List CRow
  | [] => [x]
  | y :: ys => if x.date ≤ y.date then x :: y :: ys else y :: insertAsc x ys

/-- Stable ascending sort by DATE (model of
`df.sort_values("DATE")`; stable for the list sizes where numpy's sort is
insertion sort, and the reference semantics for the tie-break question). -/
def sortAscDate : List CRow → List CRow
  | [] => []
  | x :: xs => insertAsc x (sortAscDate xs)

/-- Stable insertion into a date-descending list: the new element goes
before the first element of equal or earlier date. -/
def insertDesc (x : CRow) : List CRow → List CRow
  | [] => [x]
  | y :: ys => if y.date ≤ x.date then x :: y :: ys else y :: insertDesc x ys

/-- Stable descending sort by DATE (model of
`df.sort_values(by="DATE", ascending=False)`). -/
def sortDescDate : List CRow → List CRow
  | [] => []
  | x :: xs => insertDesc x (sortDescDate xs)

/-- `dashboard_pivot.py` line 132 (`latest_for_pie`), per equipment key:
`df.sort_values("DATE").groupby("EQUIPMENT DESCRIPTION", as_index=False).last()`
keeps, for each equipment, the last row of its group in the sorted frame. -/
def latest_for_pie (rows : List CRow) (k : PyStr) : Option CRow :=
  ((sortAscDate rows).filter (fun r => r.equipment = k)).getLast?

/-- `dashboard_pivot.py` lines 224-225 (`detail_df`), per equipment key:
`df.sort_values(by="DATE", ascending=False).drop_duplicates(subset=["EQUIPMENT DESCRIPTION"], keep="first")`
keeps, for each equipment, the first row of that key in the
descending-sorted frame. -/
def detail_latest (rows : List CRow) (k : PyStr) : Option CRow :=
  ((sortDescDate rows).filter (fun r => r.equipment = k)).head?

/-- The maximum DATE of a list of cleaned rows (`none` on the empty
list). -/
def maxDate? : List CRow → Option Int
  | [] => none
  | r :: rs =>
    match maxDate? rs with
    | none => some r.date
    | some d => some (max r.date d)

/-- The last record in input order among those carrying the maximum date:
the specification-language description of a "keep the last among ties"
latest-per-equipment rule. -/
def lastAmongMax (m : List CRow) : Option CRow :=
  match maxDate? m with
  | none => none
  | some d => (m.filter (fun r => r.date = d)).getLast?

/-- The first record in input order among those carrying the maximum
date. -/
def firstAmongMax (m : List CRow) : Option CRow :=
  match maxDate? m with
  | none => none
  | some d => (m.filter (fun r => r.date = d)).head?

/-- The values a health level may take: unknown or 1..3. -/
def okLevels : List (Option Nat) := [none, some 1, some 2, some 3]

/-- The presented-cell values a health level may take: one of the two
missing representations, or a known level 1..3. -/
def okCells : List PdCell :=
  [PdCell.pyNone, PdCell.nan, PdCell.known 1, PdCell.known 2, PdCell.known 3]

/-! ### The skip-NaN minimum: algebra and grouping -/

theorem optMin_none_right (a : Option Nat) : optMin a none = a := by
  cases a <;> rfl

theorem optMin_comm (a b : Option Nat) : optMin a b = optMin b a := by
  cases a <;> cases b <;> simp [optMin, Nat.min_comm]

theorem optMin_assoc (a b c : Option Nat) :
    optMin (optMin a b) c = optMin a (optMin b c) := by
  cases a <;> cases b <;> cases c <;> simp [optMin, Nat.min_assoc]

theorem optMin_left_comm (a b c : Option Nat) :
    optMin a (optMin b c) = optMin b (optMin a c) := by
  rw [← optMin_assoc, optMin_comm a b, optMin_assoc]

theorem minSkipNa_cons (x : Option Nat) (l : List (Option Nat)) :
    minSkipNa (x :: l) = optMin x (minSkipNa l) := rfl

theorem minSkipNa_filter_split {β : Type} (v : β → Option Nat) (p : β → Bool)
    (xs : List β) :
    optMin (minSkipNa ((xs.filter p).map v))
        (minSkipNa ((xs.filter (fun b => !p b)).map v))
      = minSkipNa (xs.map v) := by
  induction xs with
  | nil => rfl
  | cons b t ih =>
    cases hb : p b
    · have h1 : (b :: t).filter p = t.filter p := by
        simp [List.filter_cons, hb]
      have h2 : (b :: t).filter (fun x => !p x) = b :: t.filter (fun x => !p x) := by
        simp [List.filter_cons, hb]
      rw [h1, h2]
      simp only [List.map_cons, minSkipNa_cons]
      rw [optMin_left_comm, ih]
    · have h1 : (b :: t).filter p = b :: t.filter p := by
        simp [List.filter_cons, hb]
      have h2 : (b :: t).filter (fun x => !p x) = t.filter (fun x => !p x) := by
        simp [List.filter_cons, hb]
      rw [h1, h2]
      simp only [List.map_cons, minSkipNa_cons]
      rw [optMin_assoc, ih]

theorem minSkipNa_grouped {β K : Type} [DecidableEq K] (v : β → Option Nat)
    (k : β → K) :
    ∀ (keys : List K) (xs : List β), keys.Nodup → (∀ b ∈ xs, k b ∈ keys) →
      minSkipNa (keys.map
          (fun key => minSkipNa ((xs.filter (fun b => k b = key)).map v)))
        = minSkipNa (xs.map v) := by
  intro keys
  induction keys with
  | nil =>
    intro xs _ hcov
    cases xs with
    | nil => rfl
    | cons b t => exact absurd (hcov b (List.mem_cons_self b t)) (List.not_mem_nil _)
  | cons key rest ih =>
    intro xs hnd hcov
    obtain ⟨hk, hndr⟩ := List.nodup_cons.mp hnd
    have hmapeq : rest.map
          (fun key' => minSkipNa ((xs.filter (fun b => k b = key')).map v))
        = rest.map (fun key' => minSkipNa
            (((xs.filter (fun b => !(decide (k b = key)))).filter
              (fun b => k b = key')).map v)) := by
      apply List.map_congr_left
      intro key' hkey'
      have hne : key' ≠ key := fun h => hk (h ▸ hkey')
      have : (xs.filter (fun b => !(decide (k b = key)))).filter
            (fun b => k b = key')
          = xs.filter (fun b => k b = key') := by
        rw [List.filter_filter]
        apply List.filter_congr
        intro b _
        by_cases hkb : k b = key'
        · have : ¬ (k b = key) := fun h => hne (by rw [← hkb, h])
          simp [hkb, this, hne]
        · simp [hkb]
      rw [this]
    rw [List.map_cons, minSkipNa_cons, hmapeq,
      ih (xs.filter (fun b => !(decide (k b = key))))
        hndr
        (by
          intro b hb
          obtain ⟨hbxs, hbp⟩ := List.mem_filter.mp hb
          have := hcov b hbxs
          rcases List.mem_cons.mp this with h | h
          · exfalso
            simp only [Bool.not_eq_true', decide_eq_false_iff_not] at hbp
            exact hbp h
          · exact h)]
    exact minSkipNa_filter_split v (fun b => decide (k b = key)) xs

/-! ### Bridging pandas `min(skipna=True)` and Python `min` -/

theorem pyMin_foldl (xs : List Nat) (a : Nat) :
    xs.foldl min a = match pyMin xs with | none => a | some m => min a m := by
  induction xs generalizing a with
  | nil => rfl
  | cons x t ih =>
    simp only [List.foldl_cons, pyMin]
    rw [ih (min a x), ih x]
    cases pyMin t with
    | none => rfl
    | some m => simp [Nat.min_assoc]

theorem optMin_some_pyMin (a : Nat) (ys : List Nat) :
    optMin (some a) (pyMin ys) = pyMin (a :: ys) := by
  cases ys with
  | nil => rfl
  | cons y t =>
    simp only [pyMin, optMin, List.foldl_cons]
    rw [pyMin_foldl t (min a y), pyMin_foldl t y]
    cases pyMin t <;> simp [Nat.min_assoc]

theorem minSkipNa_eq_pyMin (l : List (Option Nat)) :
    minSkipNa l = pyMin (l.filterMap id) := by
  induction l with
  | nil => rfl
  | cons x t ih =>
    cases x with
    | none => simpa [minSkipNa_cons, optMin] using ih
    | some a =>
      simp only [minSkipNa_cons, List.filterMap_cons, id]
      rw [ih, optMin_some_pyMin]

/-- C3: for every list of classified equipment and every assignment of
equipment to systems, the area level computed through the system-level
intermediate (`groupby(["AREA","SYSTEM"]).min()` followed by
`groupby("AREA").min()`, NaN skipped at each step, NaN when all children
are NaN) equals the area level computed directly as the skip-NaN minimum
over all equipment scores of the area. -/
theorem C3_area_rollup_equals_direct_min :
    ∀ (rows : List GRow) (a : PyStr),
      area_score_via_systems rows a = area_score_direct rows a := by
  intro rows a
  unfold area_score_via_systems area_score_direct
  set L := (sysKeys rows).filter (fun k => k.1 = a) with hL
  set xs := rows.filter (fun r => r.area = a) with hxs
  have hstep : L.map (fun k => sys_score rows k.1 k.2)
      = L.map (fun k =>
          minSkipNa ((xs.filter (fun r => r.system = k.2)).map (·.score))) := by
    apply List.map_congr_left
    intro k hkL
    obtain ⟨hkmem, hka⟩ := List.mem_filter.mp hkL
    have hka' : k.1 = a := of_decide_eq_true hka
    unfold sys_score
    congr 1
    rw [hxs, List.filter_filter]
    congr 1
    apply List.filter_congr
    intro r _
    by_cases h1 : r.area = a <;> by_cases h2 : r.system = k.2 <;>
      simp [h1, h2, hka']
  rw [hstep]
  have hmap2 : L.map (fun k =>
        minSkipNa ((xs.filter (fun r => r.system = k.2)).map (·.score)))
      = (L.map Prod.snd).map (fun s =>
          minSkipNa ((xs.filter (fun r => r.system = s)).map (·.score))) := by
    rw [List.map_map]
    rfl
  rw [hmap2]
  apply minSkipNa_grouped (·.score) (fun r : GRow => r.system) (L.map Prod.snd) xs
  · have hLnd : L.Nodup := (List.nodup_dedup _).filter _
    apply hLnd.map_on
    intro x hx y hy hxy
    obtain ⟨_, hxa⟩ := List.mem_filter.mp hx
    obtain ⟨_, hya⟩ := List.mem_filter.mp hy
    have hxa' : x.1 = a := of_decide_eq_true hxa
    have hya' : y.1 = a := of_decide_eq_true hya
    exact Prod.ext (hxa'.trans hya'.symm) hxy
  · intro b hb
    obtain ⟨hbrows, hba⟩ := List.mem_filter.mp hb
    have hba' : b.area = a := of_decide_eq_true hba
    apply List.mem_map.mpr
    refine ⟨(b.area, b.system), ?_, rfl⟩
    apply List.mem_filter.mpr
    constructor
    · exact List.mem_dedup.mpr (List.mem_map.mpr ⟨b, hbrows, rfl⟩)
    · simpa using hba'

/-! ### Python `min` over presented cells -/

theorem pyMinFold_cons (x y : PdCell) (ys : List PdCell) :
    pyMinFold x (y :: ys) = pyMinFold (if pdLt y x then y else x) ys := rfl

theorem pyMinFold_nan (xs : List PdCell) :
    pyMinFold PdCell.nan xs = PdCell.nan := by
  induction xs with
  | nil => rfl
  | cons y ys ih =>
    rw [pyMinFold_cons, if_neg (by cases y <;> simp [pdLt])]
    exact ih

theorem pyMinFold_known (v : Nat) (xs : List PdCell) :
    pyMinFold (PdCell.known v) xs
      = PdCell.known ((knownVals xs).foldl min v) := by
  induction xs generalizing v with
  | nil => rfl
  | cons y ys ih =>
    cases y with
    | known b =>
      rw [pyMinFold_cons,
        show knownVals (PdCell.known b :: ys) = b :: knownVals ys from rfl,
        List.foldl_cons]
      by_cases hb : b < v
      · rw [if_pos (by simpa [pdLt] using hb), ih,
          Nat.min_eq_right (Nat.le_of_lt hb)]
      · rw [if_neg (by simpa [pdLt] using hb), ih, Nat.min_eq_left (by omega)]
    | nan =>
      rw [pyMinFold_cons, if_neg (by simp [pdLt]),
        show knownVals (PdCell.nan :: ys) = knownVals ys from rfl, ih]
    | pyNone =>
      rw [pyMinFold_cons, if_neg (by simp [pdLt]),
        show knownVals (PdCell.pyNone :: ys) = knownVals ys from rfl, ih]

theorem pyMinFold_mem (x : PdCell) (xs : List PdCell) :
    pyMinFold x xs ∈ x :: xs := by
  induction xs generalizing x with
  | nil => exact List.mem_cons_self _ _
  | cons y ys ih =>
    rw [pyMinFold_cons]
    by_cases h : pdLt y x = true
    · rw [if_pos h]
      exact List.mem_cons_of_mem x (ih y)
    · rw [if_neg h]
      rcases List.mem_cons.mp (ih x) with h' | h'
      · rw [h']
        exact List.mem_cons_self _ _
      · exact List.mem_cons_of_mem _ (List.mem_cons_of_mem _ h')

/-- C1 counterexample: in the `dashboard2.py`/`dashboard3.py` frame with a
row whose VIBRATION is missing (in a column that elsewhere holds a known
score) and whose OIL ANALYSIS is the known level 3, the missing cell
presents as float NaN, survives the `is not None` filter, and NaN-poisons
Python's `min`, so `CALCULATED_SCORE` is unknown although a category
level is known — the equipment level is not the minimum of the
non-unknown category levels.  Also: with all four categories missing and
an overall score that normalizes to 3, there is no fallback
(`CALCULATED_SCORE` stays `None`); and `dashboard.py`'s fallback uses the
full normalizer, so a text overall value (which the numeric path cannot
parse) still yields a level. -/
theorem C1_counterexample :
    calculated_score
        [⟨none, some (pystr "ok"), none, none, none⟩,
         ⟨some (pystr "acceptable"), none, none, none, none⟩]
        ⟨none, some (pystr "ok"), none, none, none⟩ = PdCell.nan ∧
    getOk (map_score (some (pystr "ok")) catOIL) = some 3 ∧
    calculated_score [⟨none, none, none, none, some (pystr "3")⟩]
        ⟨none, none, none, none, some (pystr "3")⟩ = PdCell.pyNone ∧
    parseFloat? (pyStrip (pystr "3")) = some ⟨3, 1⟩ ∧
    catScores ⟨none, none, none, none, some (pystr "good")⟩
        = [none, none, none, none] ∧
    parseFloat? (pyStrip (pystr "good")) = none ∧
    equip_score ⟨none, none, none, none, some (pystr "good")⟩ = some 3 := by
  decide

/-- C1 (amended): in `dashboard.py`, the equipment score is the minimum of
the non-unknown category levels, and exactly when all four category levels
are unknown it falls back to `coerce_score` of the overall score (the full
normalizer: numeric path for numeric text, label lookup otherwise).  In
`dashboard2.py`/`dashboard3.py` there is no fallback to the overall score,
and minimum-of-known holds only up to NaN-poisoning of Python's `min`:
`CALCULATED_SCORE` is `None` when every presented category cell of the row
is `None`; it is `NaN` when the first cell surviving the `is not None`
filter is a `NaN` (a missing category whose `*_SCORE` column elsewhere
holds a known score), even when later categories are known; and when the
first surviving cell is a known level it is the minimum of the row's known
levels. -/
theorem C1_amended_equipment_level :
    ∀ (r : ScRow) (rows2 : List ScRow) (r2 : ScRow) (subs : List PdCell),
      ((catScores r).filterMap id = [] → equip_score r = coerce_score r.cms) ∧
      ((catScores r).filterMap id ≠ [] →
        equip_score r = pyMin ((catScores r).filterMap id)) ∧
      calculated_score rows2 r2 = aggregate_score (subsRow rows2 r2) ∧
      (subs.filter (fun c => !(c == PdCell.pyNone)) = [] →
        aggregate_score subs = PdCell.pyNone) ∧
      (∀ xs, subs.filter (fun c => !(c == PdCell.pyNone)) = PdCell.nan :: xs →
        aggregate_score subs = PdCell.nan) ∧
      (∀ v xs,
        subs.filter (fun c => !(c == PdCell.pyNone)) = PdCell.known v :: xs →
        aggregate_score subs = PdCell.known ((knownVals xs).foldl min v)) := by
  intro r rows2 r2 subs
  refine ⟨?_, ?_, rfl, ?_, ?_, ?_⟩
  · intro h
    unfold equip_score
    rw [minSkipNa_eq_pyMin, h]
    rfl
  · intro h
    unfold equip_score
    rw [minSkipNa_eq_pyMin]
    cases hm : pyMin ((catScores r).filterMap id) with
    | none =>
      exfalso
      cases hfm : (catScores r).filterMap id with
      | nil => exact h hfm
      | cons x t => rw [hfm] at hm; exact Option.noConfusion hm
    | some m => rfl
  · intro h
    simp only [aggregate_score, h]
  · intro xs h
    simp only [aggregate_score, h]
    exact pyMinFold_nan xs
  · intro v xs h
    simp only [aggregate_score, h]
    exact pyMinFold_known v xs

/-! ### The numeric normalization path -/

theorem parseFloatCore_den_pos {l : PyStr} {p : PreRat}
    (h : parseFloatCore l = some p) : 0 < p.den := by
  unfold parseFloatCore at h
  dsimp only [] at h
  split at h
  · split at h
    · exact absurd h (by simp)
    · cases h
      exact Nat.one_pos
  · split at h
    · split at h
      · cases h
        exact pow_pos (by norm_num) _
      · exact absurd h (by simp)
    · exact absurd h (by simp)

theorem parseFloat?_den_pos {s : PyStr} {p : PreRat}
    (h : parseFloat? s = some p) : 0 < p.den := by
  cases s with
  | nil => exact absurd h (by simp [parseFloat?])
  | cons c rest =>
    simp only [parseFloat?] at h
    split_ifs at h
    · exact parseFloatCore_den_pos h
    · obtain ⟨q, hq, hf⟩ := Option.map_eq_some'.mp h
      have := parseFloatCore_den_pos hq
      subst hf
      exact this
    · exact parseFloatCore_den_pos h

theorem clamp13_mem (z : Int) :
    clamp13 z = 1 ∨ clamp13 z = 2 ∨ clamp13 z = 3 := by
  unfold clamp13
  omega

theorem pyRoundPre_eq_pyRound {p : PreRat} (hp : 0 < p.den) :
    pyRoundPre p = pyRound (ratOf p) := by
  have hdZ : (0 : Int) < (p.den : Int) := by exact_mod_cast hp
  have hdQ : (0 : ℚ) < ((p.den : Int) : ℚ) := by exact_mod_cast hdZ
  have hfl : ⌊ratOf p⌋ = p.num / (p.den : Int) :=
    Rat.floor_intCast_div_natCast p.num p.den
  have hid : p.num = (p.den : Int) * (p.num / (p.den : Int)) + p.num % (p.den : Int) :=
    (Int.ediv_add_emod p.num (p.den : Int)).symm
  have hr : ratOf p - ((p.num / (p.den : Int) : Int) : ℚ)
      = ((p.num % (p.den : Int) : Int) : ℚ) / ((p.den : Int) : ℚ) := by
    have hcast : ((p.num : Int) : ℚ)
        = ((p.den : Int) : ℚ) * ((p.num / (p.den : Int) : Int) : ℚ)
          + ((p.num % (p.den : Int) : Int) : ℚ) := by
      exact_mod_cast congrArg (fun z : Int => (z : ℚ)) hid
    have hne : ((p.den : Int) : ℚ) ≠ 0 := ne_of_gt hdQ
    have hro : ratOf p = ((p.num : Int) : ℚ) / ((p.den : Int) : ℚ) := by
      unfold ratOf
      norm_cast
    rw [hro, hcast]
    field_simp
  have htwo : (0 : ℚ) < 2 := by norm_num
  have e1 : (ratOf p - ((p.num / (p.den : Int) : Int) : ℚ) < 1/2)
      ↔ 2 * (p.num % (p.den : Int)) < (p.den : Int) := by
    rw [hr, div_lt_div_iff₀ hdQ htwo, one_mul,
      show (((p.num % (p.den : Int) : Int) : ℚ) * 2)
          = ((2 * (p.num % (p.den : Int)) : Int) : ℚ) by push_cast; ring]
    exact Int.cast_lt
  have e2 : (1/2 < ratOf p - ((p.num / (p.den : Int) : Int) : ℚ))
      ↔ (p.den : Int) < 2 * (p.num % (p.den : Int)) := by
    rw [hr, div_lt_div_iff₀ htwo hdQ, one_mul,
      show (((p.num % (p.den : Int) : Int) : ℚ) * 2)
          = ((2 * (p.num % (p.den : Int)) : Int) : ℚ) by push_cast; ring]
    exact Int.cast_lt
  simp only [pyRound, pyRoundPre, hfl]
  simp only [e1, e2]

/-- C2: every raw value whose stripped string form parses as a number `v`
is normalized on the numeric path to `clamp(round(v), 1, 3)` — `round`
being Python's round-half-to-even — always a value in {1,2,3}, never
unknown. -/
theorem C2_numeric_inputs_clamped_round :
    ∀ (s : PyStr) (p : PreRat), parseFloat? (pyStrip s) = some p →
      coerce_score (some s) = some (clamp13 (pyRound (ratOf p))) ∧
      (clamp13 (pyRound (ratOf p)) = 1 ∨ clamp13 (pyRound (ratOf p)) = 2 ∨
        clamp13 (pyRound (ratOf p)) = 3) := by
  intro s p h
  refine ⟨?_, clamp13_mem _⟩
  have hden := parseFloat?_den_pos h
  simp only [coerce_score, h]
  rw [pyRoundPre_eq_pyRound hden]

/-- C2 witness: the string `"4"` parses as 4 and is clamped to level 3. -/
theorem C2_witness :
    parseFloat? (pyStrip (pystr "4")) = some ⟨4, 1⟩ ∧
    coerce_score (some (pystr "4"))
        = some (clamp13 (pyRound (ratOf ⟨4, 1⟩))) :=
  ⟨by decide, (C2_numeric_inputs_clamped_round (pystr "4") ⟨4, 1⟩ (by decide)).1⟩

/-- C1 witness: concrete instantiations discharging the hypotheses of the
amended theorem — the dashboard.py fallback and minimum cases, a row whose
surviving cells start with a NaN (poisoned to NaN despite a known 3), and
a row whose surviving cells start with a known 3 (min of knowns 3 and 1).
-/
theorem C1_witness :
    equip_score ⟨none, none, none, none, some (pystr "2")⟩
        = coerce_score (some (pystr "2")) ∧
    equip_score ⟨some (pystr "good"), none, none, some (pystr "alert"), none⟩
        = pyMin ((catScores
            ⟨some (pystr "good"), none, none, some (pystr "alert"), none⟩).filterMap id) ∧
    aggregate_score [PdCell.nan, PdCell.known 3, PdCell.pyNone, PdCell.pyNone]
        = PdCell.nan ∧
    aggregate_score [PdCell.known 3, PdCell.nan, PdCell.known 1]
        = PdCell.known ((knownVals [PdCell.nan, PdCell.known 1]).foldl min 3) :=
  ⟨(C1_amended_equipment_level ⟨none, none, none, none, some (pystr "2")⟩ []
      ⟨none, none, none, none, none⟩ []).1 (by decide),
   (C1_amended_equipment_level
      ⟨some (pystr "good"), none, none, some (pystr "alert"), none⟩ []
      ⟨none, none, none, none, none⟩ []).2.1 (by decide),
   (C1_amended_equipment_level ⟨none, none, none, none, none⟩ []
      ⟨none, none, none, none, none⟩
      [PdCell.nan, PdCell.known 3, PdCell.pyNone, PdCell.pyNone]).2.2.2.2.1
     [PdCell.known 3] (by decide),
   (C1_amended_equipment_level ⟨none, none, none, none, none⟩ []
      ⟨none, none, none, none, none⟩
      [PdCell.known 3, PdCell.nan, PdCell.known 1]).2.2.2.2.2
     3 [PdCell.nan, PdCell.known 1] (by decide)⟩

/-- C7: the date-range filter keeps exactly the records whose observation
date `d` satisfies `start ≤ d ≤ stop` (inclusive on both ends); a record
with a null/unparseable date (NaT) fails both pandas comparisons and is
excluded from the date-bounded result. -/
theorem C7_date_filter_inclusive_excludes_nat :
    ∀ (rows : List DRow) (start stop : Int) (r : DRow),
      r ∈ filter_by_date_range rows start stop ↔
        r ∈ rows ∧ ∃ d, r.date = some d ∧ start ≤ d ∧ d ≤ stop := by
  intro rows start stop r
  unfold filter_by_date_range
  rw [List.mem_filter]
  constructor
  · rintro ⟨hm, hp⟩
    refine ⟨hm, ?_⟩
    cases hd : r.date with
    | none => rw [hd] at hp; exact absurd hp (by simp)
    | some d =>
      rw [hd] at hp
      simp only [Bool.and_eq_true, decide_eq_true_eq] at hp
      exact ⟨d, rfl, hp.1, hp.2⟩
  · rintro ⟨hm, d, hd, h1, h2⟩
    refine ⟨hm, ?_⟩
    rw [hd]
    simp [h1, h2]

/-! ### Truncation toward zero in the pivot pipeline -/

theorem ratOf_nonneg_iff {p : PreRat} (hp : 0 < p.den) :
    0 ≤ ratOf p ↔ 0 ≤ p.num := by
  have hdQ : (0 : ℚ) < (p.den : ℚ) := by exact_mod_cast hp
  unfold ratOf
  rw [div_nonneg_iff]
  constructor
  · rintro (⟨h, _⟩ | ⟨_, hd⟩)
    · exact_mod_cast h
    · exact absurd hd (not_le.mpr hdQ)
  · intro h
    exact Or.inl ⟨by exact_mod_cast h, le_of_lt hdQ⟩

theorem truncPre_floor_ceil {p : PreRat} (hp : 0 < p.den) :
    (0 ≤ ratOf p → truncPre p = ⌊ratOf p⌋) ∧
    (ratOf p < 0 → truncPre p = ⌈ratOf p⌉) := by
  have hdZ : (0 : Int) ≤ (p.den : Int) := by positivity
  have hfl : ⌊ratOf p⌋ = p.num / (p.den : Int) :=
    Rat.floor_intCast_div_natCast p.num p.den
  constructor
  · intro h
    have hn : 0 ≤ p.num := (ratOf_nonneg_iff hp).mp h
    rw [hfl]
    exact Int.tdiv_eq_ediv hn hdZ
  · intro h
    have hn : ¬ 0 ≤ p.num := by
      intro hn
      exact absurd ((ratOf_nonneg_iff hp).mpr hn) (not_le.mpr h)
    have hceil : ⌈ratOf p⌉ = -⌊-ratOf p⌋ := by
      rw [← Int.ceil_neg, neg_neg]
    have hnegval : -ratOf p = ratOf ⟨-p.num, p.den⟩ := by
      unfold ratOf
      push_cast
      ring
    have hflneg : ⌊ratOf ⟨-p.num, p.den⟩⌋ = (-p.num) / (p.den : Int) :=
      Rat.floor_intCast_div_natCast (-p.num) p.den
    rw [hceil, hnegval, hflneg, ← Int.tdiv_eq_ediv (by omega) hdZ]
    unfold truncPre
    rw [Int.neg_tdiv, neg_neg]

/-- C9: in the pivot variant, the overall score is integerized by
truncation toward zero (`astype(int)`), not rounding, and a record is kept
(in all views) exactly when area, system, equipment, date and a numeric
score are all present and the truncated score is exactly 1, 2 or 3 —
out-of-range or fractional-to-out-of-range scores and incomplete records
are dropped rather than clamped or marked unknown.  The second conjunct
identifies `truncPre` with genuine truncation toward zero on ℚ. -/
theorem C9_pivot_truncation_and_dropping :
    (∀ (rows : List PRow) (c : CRow),
      c ∈ pivotClean rows ↔
        ∃ r ∈ rows, r.area = some c.area ∧ r.system = some c.system ∧
          r.equipment = some c.equipment ∧ r.date = some c.date ∧
          (∃ q, r.score = some q ∧ truncPre q = c.score) ∧
          (c.score = 1 ∨ c.score = 2 ∨ c.score = 3)) ∧
    (∀ p : PreRat, 0 < p.den →
      (0 ≤ ratOf p → truncPre p = ⌊ratOf p⌋) ∧
      (ratOf p < 0 → truncPre p = ⌈ratOf p⌉)) := by
  constructor
  · intro rows c
    unfold pivotClean
    rw [List.mem_filterMap]
    constructor
    · rintro ⟨r, hr, hfr⟩
      obtain ⟨ra, rs, re, rd, rq⟩ := r
      cases ra <;> cases rs <;> cases re <;> cases rd <;> cases rq <;> simp at hfr
      rename_i a s e d q
      obtain ⟨hcond, hceq⟩ := hfr
      subst hceq
      exact ⟨⟨some a, some s, some e, some d, some q⟩, hr,
        rfl, rfl, rfl, rfl, ⟨q, rfl, rfl⟩, hcond⟩
    · rintro ⟨r, hr, ha, hs, he, hd, ⟨q, hq, htr⟩, hmem⟩
      refine ⟨r, hr, ?_⟩
      obtain ⟨ra, rs, re, rd, rq⟩ := r
      dsimp only [] at ha hs he hd hq
      subst ha hs he hd hq
      dsimp only []
      rw [if_pos (htr ▸ hmem)]
      obtain ⟨ca, cs, ce, cd, cn⟩ := c
      dsimp only [] at htr ⊢
      rw [htr]
  · intro p hp
    exact truncPre_floor_ceil hp

/-- C9 witness: a complete record with score 2.9 is kept with truncated
score 2 (rounding would give 3); one with score 0.9 is dropped (clamping
would keep 1); one with a missing system is dropped. -/
theorem C9_witness :
    (⟨pystr "A", pystr "S", pystr "E", 7, 2⟩ : CRow) ∈ pivotClean
        [⟨some (pystr "A"), some (pystr "S"), some (pystr "E"), some 7,
          some ⟨29, 10⟩⟩,
         ⟨some (pystr "A"), some (pystr "S"), some (pystr "E"), some 8,
          some ⟨9, 10⟩⟩,
         ⟨some (pystr "A"), none, some (pystr "E"), some 9, some ⟨2, 1⟩⟩] ∧
    truncPre ⟨29, 10⟩ = ⌊ratOf ⟨29, 10⟩⌋ := by
  constructor
  · exact (C9_pivot_truncation_and_dropping.1 _ _).mpr
      ⟨⟨some (pystr "A"), some (pystr "S"), some (pystr "E"), some 7,
        some ⟨29, 10⟩⟩, by decide, rfl, rfl, rfl, rfl, ⟨⟨29, 10⟩, rfl, by decide⟩,
        by decide⟩
  · exact (C9_pivot_truncation_and_dropping.2 ⟨29, 10⟩ (by decide)).1
      (by norm_num [Dash.ratOf])

/-! ### Range invariants for health levels -/

theorem lookup_mem_values {α β : Type} [BEq α] (l : List (α × β)) (k : α) (v : β)
    (h : l.lookup k = some v) : v ∈ l.map Prod.snd := by
  induction l with
  | nil => simp [List.lookup] at h
  | cons e t ih =>
    obtain ⟨k', v'⟩ := e
    simp only [List.lookup] at h
    cases hk : (k == k') with
    | true =>
      rw [hk] at h
      cases h
      exact List.mem_cons_self _ _
    | false =>
      rw [hk] at h
      exact List.mem_cons_of_mem _ (ih h)

theorem coerce_score_mem (val : Option PyStr) : coerce_score val ∈ okLevels := by
  cases val with
  | none => simp [coerce_score, okLevels]
  | some raw =>
    cases hp : parseFloat? (pyStrip raw) with
    | some p =>
      simp only [coerce_score, hp]
      rcases clamp13_mem (pyRoundPre p) with h | h | h <;> simp [okLevels, h]
    | none =>
      simp only [coerce_score, hp]
      split_ifs <;> simp [okLevels]

theorem map_score_getOk_mem (v : Option PyStr) (c : PyStr) :
    getOk (map_score v c) ∈ okLevels := by
  cases v with
  | none => simp [map_score, getOk, okLevels]
  | some w =>
    cases ht : SCORE_MAPPINGS.lookup c with
    | none => simp [map_score, ht, getOk, okLevels]
    | some table =>
      have htm : table ∈ SCORE_MAPPINGS.map Prod.snd :=
        lookup_mem_values _ _ _ ht
      have hall : ∀ x ∈ table.map Prod.snd, x ∈ okLevels := by
        simp only [SCORE_MAPPINGS, List.map_cons, List.map_nil,
          List.mem_cons, List.not_mem_nil, or_false] at htm
        rcases htm with rfl | rfl | rfl | rfl <;> decide
      cases hl : table.lookup (pyLower (pyStrip w)) with
      | none => simp [map_score, ht, hl, getOk, okLevels]
      | some x =>
        have hx := hall x (lookup_mem_values _ _ _ hl)
        simpa [map_score, ht, hl, getOk] using hx

theorem optMin_mem_okLevels {a b : Option Nat} (ha : a ∈ okLevels)
    (hb : b ∈ okLevels) : optMin a b ∈ okLevels := by
  simp only [okLevels, List.mem_cons, List.not_mem_nil, or_false] at ha hb ⊢
  rcases ha with rfl | rfl | rfl | rfl <;> rcases hb with rfl | rfl | rfl | rfl <;>
    simp [optMin]

theorem minSkipNa_mem_okLevels {l : List (Option Nat)}
    (h : ∀ x ∈ l, x ∈ okLevels) : minSkipNa l ∈ okLevels := by
  induction l with
  | nil => simp [minSkipNa, okLevels]
  | cons x t ih =>
    rw [minSkipNa_cons]
    exact optMin_mem_okLevels (h x (List.mem_cons_self _ _))
      (ih (fun y hy => h y (List.mem_cons_of_mem _ hy)))

theorem presentedCell_mem (col : List (Option Nat)) {x : Option Nat}
    (hx : x ∈ okLevels) : presentedCell col x ∈ okCells := by
  cases x with
  | none =>
    unfold presentedCell
    split_ifs <;> decide
  | some n =>
    simp only [okLevels, List.mem_cons, List.not_mem_nil, or_false] at hx
    rcases hx with h | h | h | h
    · exact absurd h (by simp)
    · cases h
      exact (by decide : PdCell.known 1 ∈ okCells)
    · cases h
      exact (by decide : PdCell.known 2 ∈ okCells)
    · cases h
      exact (by decide : PdCell.known 3 ∈ okCells)

theorem subsRow_mem (rows : List ScRow) (r : ScRow) :
    ∀ c ∈ subsRow rows r, c ∈ okCells := by
  intro c hc
  simp only [subsRow, List.mem_cons, List.not_mem_nil, or_false] at hc
  rcases hc with rfl | rfl | rfl | rfl <;>
    exact presentedCell_mem _ (map_score_getOk_mem _ _)

theorem aggregate_score_mem {subs : List PdCell}
    (h : ∀ c ∈ subs, c ∈ okCells) : aggregate_score subs ∈ okCells := by
  cases hf : subs.filter (fun c => !(c == PdCell.pyNone)) with
  | nil =>
    simp only [aggregate_score, hf]
    decide
  | cons x xs =>
    simp only [aggregate_score, hf]
    have hsub : ∀ c ∈ x :: xs, c ∈ okCells := by
      intro c hc
      have hcf : c ∈ subs.filter (fun c => !(c == PdCell.pyNone)) := hf ▸ hc
      exact h c (List.mem_of_mem_filter hcf)
    exact hsub _ (pyMinFold_mem x xs)

/-- C4: every health level produced by normalization (`coerce_score`,
`map_score`), classification (`equip_score`, the `CALCULATED_SCORE`
column) or aggregation (system and area skip-NaN minima) lies in {1,2,3}
or is unknown (`none`, or a `None`/`NaN` presented cell); in particular a
level 0 is never produced in the ordinal domain.  (`dashboard3.py`'s
`fillna(0)` happens strictly after aggregation, on the display copy
modelled by `display_fill`, and feeds no further minimum; the NaN leak in
`dashboard2.py`/`dashboard3.py`'s `aggregate_score` only turns values
unknown, never out of range, since Python's `min` returns an element of
its argument list.) -/
theorem C4_health_levels_in_range :
    ∀ (val v : Option PyStr) (c : PyStr) (r : ScRow) (rows2 : List ScRow)
      (r2 : ScRow) (rows : List GRow) (a s : PyStr),
      (∀ g ∈ rows, g.score ∈ okLevels) →
      coerce_score val ∈ okLevels ∧
      getOk (map_score v c) ∈ okLevels ∧
      equip_score r ∈ okLevels ∧
      calculated_score rows2 r2 ∈ okCells ∧
      sys_score rows a s ∈ okLevels ∧
      area_score_via_systems rows a ∈ okLevels ∧
      area_score_direct rows a ∈ okLevels := by
  intro val v c r rows2 r2 rows a s hrows
  have hcat : ∀ x ∈ catScores r, x ∈ okLevels := by
    intro x hx
    simp only [catScores, List.mem_cons, List.not_mem_nil, or_false] at hx
    rcases hx with rfl | rfl | rfl | rfl <;> exact coerce_score_mem _
  refine ⟨coerce_score_mem _, map_score_getOk_mem _ _, ?_, ?_, ?_, ?_, ?_⟩
  · unfold equip_score
    cases hm : minSkipNa (catScores r) with
    | none =>
      simp only [hm]
      exact coerce_score_mem _
    | some m =>
      have hmem := minSkipNa_mem_okLevels hcat
      rw [hm] at hmem
      simp only [hm]
      exact hmem
  · exact aggregate_score_mem (subsRow_mem rows2 r2)
  · apply minSkipNa_mem_okLevels
    intro x hx
    obtain ⟨g, hg, rfl⟩ := List.mem_map.mp hx
    exact hrows g (List.mem_of_mem_filter hg)
  · apply minSkipNa_mem_okLevels
    intro x hx
    obtain ⟨kk, _, rfl⟩ := List.mem_map.mp hx
    apply minSkipNa_mem_okLevels
    intro y hy
    obtain ⟨g, hg, rfl⟩ := List.mem_map.mp hy
    exact hrows g (List.mem_of_mem_filter hg)
  · apply minSkipNa_mem_okLevels
    intro x hx
    obtain ⟨g, hg, rfl⟩ := List.mem_map.mp hx
    exact hrows g (List.mem_of_mem_filter hg)

/-- C4 witness: the invariant at concrete inputs, including a two-row
dashboard2-style frame whose first row NaN-poisons, with the aggregation
hypothesis discharged on a two-row frame. -/
theorem C4_witness :
    coerce_score (some (pystr "0.4")) ∈ okLevels ∧
    getOk (map_score (some (pystr "Alert")) catOTHER) ∈ okLevels ∧
    equip_score ⟨some (pystr "ok"), none, none, none, none⟩ ∈ okLevels ∧
    calculated_score
        [⟨none, some (pystr "ok"), none, none, none⟩,
         ⟨some (pystr "acceptable"), none, none, none, none⟩]
        ⟨none, some (pystr "ok"), none, none, none⟩ ∈ okCells ∧
    sys_score [⟨pystr "A", pystr "S", some 2⟩, ⟨pystr "A", pystr "S", none⟩]
        (pystr "A") (pystr "S") ∈ okLevels ∧
    area_score_via_systems
        [⟨pystr "A", pystr "S", some 2⟩, ⟨pystr "A", pystr "S", none⟩]
        (pystr "A") ∈ okLevels ∧
    area_score_direct
        [⟨pystr "A", pystr "S", some 2⟩, ⟨pystr "A", pystr "S", none⟩]
        (pystr "A") ∈ okLevels :=
  C4_health_levels_in_range (some (pystr "0.4")) (some (pystr "Alert")) catOTHER
    ⟨some (pystr "ok"), none, none, none, none⟩
    [⟨none, some (pystr "ok"), none, none, none⟩,
     ⟨some (pystr "acceptable"), none, none, none, none⟩]
    ⟨none, some (pystr "ok"), none, none, none⟩
    [⟨pystr "A", pystr "S", some 2⟩, ⟨pystr "A", pystr "S", none⟩]
    (pystr "A") (pystr "S") (by decide)

/-- C5 counterexample: indexing `SCORE_MAPPINGS[category]` with a category
absent from the table raises `KeyError` (modelled as `Except.error`)
instead of returning unknown, so normalization is not total in the
category argument. -/
theorem C5_counterexample :
    map_score (some (pystr "good")) (pystr "PRESSURE")
      = Except.error (pystr "PRESSURE") := by
  decide

/-- C5 (amended): for the four categories present in the mapping table,
normalization is total and never raises — null input, unrecognized text
and text mapped to `"not applicable"` all yield unknown; a null value
never raises for any category (the isna check precedes the table access);
but for a non-null value and a category missing from the table,
`map_score` raises `KeyError` rather than returning unknown. -/
theorem C5_amended_totality :
    ∀ (v : Option PyStr) (cat : PyStr) (w : PyStr),
      cat ∈ [catVIB, catOIL, catTEMP, catOTHER] →
      (∃ x, map_score v cat = Except.ok x) ∧
      map_score none cat = Except.ok none ∧
      map_score (some (pystr "Not Applicable")) cat = Except.ok none ∧
      (∀ table, SCORE_MAPPINGS.lookup cat = some table →
        table.lookup (pyLower (pyStrip w)) = none →
        map_score (some w) cat = Except.ok none) ∧
      (∀ c, SCORE_MAPPINGS.lookup c = none →
        map_score (some w) c = Except.error c) := by
  intro v cat w hcat
  have hcat4 : cat = catVIB ∨ cat = catOIL ∨ cat = catTEMP ∨ cat = catOTHER := by
    simpa using hcat
  have htab : ∃ t, SCORE_MAPPINGS.lookup cat = some t := by
    rcases hcat4 with rfl | rfl | rfl | rfl <;> exact ⟨_, rfl⟩
  obtain ⟨t, ht⟩ := htab
  refine ⟨?_, rfl, ?_, ?_, ?_⟩
  · cases v with
    | none => exact ⟨none, rfl⟩
    | some w' =>
      refine ⟨(t.lookup (pyLower (pyStrip w'))).getD none, ?_⟩
      simp [map_score, ht]
  · rcases hcat4 with rfl | rfl | rfl | rfl <;> decide
  · intro table htab' hnone
    simp [map_score, htab', hnone]
  · intro c hc
    simp [map_score, hc]

/-- C5 witness: the amended totality at a concrete category and value. -/
theorem C5_witness :
    (∃ x, map_score (some (pystr "Excellent")) catVIB = Except.ok x) ∧
    map_score none catVIB = Except.ok none :=
  ⟨(C5_amended_totality (some (pystr "Excellent")) catVIB (pystr "zz")
      (by decide)).1,
   (C5_amended_totality (some (pystr "Excellent")) catVIB (pystr "zz")
      (by decide)).2.1⟩

/-! ### Code-point lemmas for case and whitespace insensitivity -/

theorem lowerChar_lowerChar (n : Nat) : lowerChar (lowerChar n) = lowerChar n := by
  unfold lowerChar
  split_ifs <;> omega

theorem isPySpace_lowerChar (n : Nat) : isPySpace (lowerChar n) = isPySpace n := by
  unfold lowerChar isPySpace
  split_ifs with h
  · rw [decide_eq_decide]
    omega
  · rfl

theorem isDigitN_lowerChar (n : Nat) : isDigitN (lowerChar n) = isDigitN n := by
  unfold lowerChar isDigitN
  split_ifs with h
  · rw [decide_eq_decide]
    omega
  · rfl

theorem lowerChar_of_isDigitN {n : Nat} (h : isDigitN n = true) : lowerChar n = n := by
  unfold isDigitN at h
  rw [decide_eq_true_eq] at h
  unfold lowerChar
  rw [if_neg]
  omega

theorem lowerChar_eq_low {n d : Nat} (hd : d < 65) : lowerChar n = d ↔ n = d := by
  unfold lowerChar
  split_ifs with h
  · constructor <;> intro <;> omega
  · exact Iff.rfl

theorem pyLower_pyLower (s : PyStr) : pyLower (pyLower s) = pyLower s := by
  unfold pyLower
  rw [List.map_map]
  exact List.map_congr_left (fun a _ => lowerChar_lowerChar a)

theorem pyStrip_pyLower (s : PyStr) : pyStrip (pyLower s) = pyLower (pyStrip s) := by
  have hc : (isPySpace ∘ lowerChar) = isPySpace := funext isPySpace_lowerChar
  unfold pyStrip pyLower
  rw [List.dropWhile_map, hc, ← List.map_reverse, List.dropWhile_map, hc,
    ← List.map_reverse]

theorem dropWhile_head_false {α : Type} {p : α → Bool} {l : List α} {x : α}
    (h : (l.dropWhile p).head? = some x) : p x = false := by
  induction l with
  | nil => simp [List.dropWhile] at h
  | cons a t ih =>
    rw [List.dropWhile_cons] at h
    split_ifs at h with ha
    · exact ih h
    · rw [List.head?_cons] at h
      cases h
      simpa using ha

theorem dropWhile_eq_self_of_head {α : Type} {p : α → Bool} {l : List α}
    (h : ∀ x, l.head? = some x → p x = false) : l.dropWhile p = l := by
  cases l with
  | nil => rfl
  | cons a t =>
    rw [List.dropWhile_cons, if_neg]
    simp [h a rfl]

theorem dropWhile_idem {α : Type} (p : α → Bool) (l : List α) :
    (l.dropWhile p).dropWhile p = l.dropWhile p :=
  dropWhile_eq_self_of_head (fun _ hx => dropWhile_head_false hx)

theorem dropWhile_getLast?_of_ne_nil {α : Type} {p : α → Bool} {l : List α}
    (h : l.dropWhile p ≠ []) : (l.dropWhile p).getLast? = l.getLast? := by
  induction l with
  | nil => exact absurd rfl h
  | cons a t ih =>
    rw [List.dropWhile_cons]
    split_ifs with ha
    · rw [List.dropWhile_cons, if_pos ha] at h
      rw [ih h]
      cases t with
      | nil => exact absurd (by rw [List.dropWhile_nil]) h
      | cons b t' => rw [List.getLast?_cons_cons]
    · rfl

theorem pyStrip_idem (s : PyStr) : pyStrip (pyStrip s) = pyStrip s := by
  set w : PyStr := (s.dropWhile isPySpace).reverse with hw
  set u : PyStr := w.dropWhile isPySpace with hu
  have hps : pyStrip s = u.reverse := rfl
  have hDu : u.reverse.dropWhile isPySpace = u.reverse := by
    apply dropWhile_eq_self_of_head
    intro x hx
    rw [List.head?_reverse] at hx
    have hune : u ≠ [] := by
      intro hnil
      rw [hnil] at hx
      simp at hx
    rw [hu, dropWhile_getLast?_of_ne_nil (hu ▸ hune), hw,
      List.getLast?_reverse] at hx
    exact dropWhile_head_false hx
  rw [hps]
  unfold pyStrip
  rw [hDu, List.reverse_reverse, hu, dropWhile_idem]

theorem map_eq_self_of_fix {α : Type} {f : α → α} {l : List α}
    (h : ∀ x ∈ l, f x = x) : l.map f = l := by
  rw [show l.map f = l.map id from List.map_congr_left h, List.map_id]

theorem takeWhile_isDigitN_pyLower (l : PyStr) :
    (l.map lowerChar).takeWhile isDigitN = l.takeWhile isDigitN := by
  have hc : (isDigitN ∘ lowerChar) = isDigitN := funext isDigitN_lowerChar
  rw [List.takeWhile_map, hc]
  exact map_eq_self_of_fix
    (fun x hx => lowerChar_of_isDigitN (List.mem_takeWhile_imp hx))

theorem dropWhile_isDigitN_pyLower (l : PyStr) :
    (l.map lowerChar).dropWhile isDigitN = (l.dropWhile isDigitN).map lowerChar := by
  have hc : (isDigitN ∘ lowerChar) = isDigitN := funext isDigitN_lowerChar
  rw [List.dropWhile_map, hc]

theorem parseFloatCore_pyLower (l : PyStr) :
    parseFloatCore (pyLower l) = parseFloatCore l := by
  unfold parseFloatCore pyLower
  rw [takeWhile_isDigitN_pyLower l, dropWhile_isDigitN_pyLower l]
  cases hd : l.dropWhile isDigitN with
  | nil => rfl
  | cons c fr =>
    dsimp only [List.map_cons]
    by_cases hc : c = 46
    · subst hc
      rw [show lowerChar 46 = 46 from rfl]
      cases hfa : fr.all isDigitN with
      | true =>
        have hmapfr : fr.map lowerChar = fr :=
          map_eq_self_of_fix (fun x hx =>
            lowerChar_of_isDigitN (List.all_eq_true.mp hfa x hx))
        rw [hmapfr, hfa]
      | false =>
        have hmapall : (fr.map lowerChar).all isDigitN = false := by
          rw [List.all_map, show (isDigitN ∘ lowerChar) = isDigitN from
            funext isDigitN_lowerChar, hfa]
        rw [if_pos rfl, if_pos rfl, hmapall]
        simp
    · have hlc : lowerChar c ≠ 46 :=
        fun h => hc ((lowerChar_eq_low (by norm_num)).mp h)
      rw [if_neg hlc, if_neg hc]

theorem parseFloat?_pyLower (s : PyStr) : parseFloat? (pyLower s) = parseFloat? s := by
  cases s with
  | nil => rfl
  | cons c rest =>
    simp only [pyLower, List.map_cons, parseFloat?]
    have h43 : (lowerChar c = 43) ↔ (c = 43) := lowerChar_eq_low (by norm_num)
    have h45 : (lowerChar c = 45) ↔ (c = 45) := lowerChar_eq_low (by norm_num)
    by_cases hc : c = 43
    · rw [if_pos (h43.mpr hc), if_pos hc]
      exact parseFloatCore_pyLower rest
    · rw [if_neg (fun h => hc (h43.mp h)), if_neg hc]
      by_cases hc' : c = 45
      · rw [if_pos (h45.mpr hc'), if_pos hc']
        exact congrArg (Option.map _) (parseFloatCore_pyLower rest)
      · rw [if_neg (fun h => hc' (h45.mp h)), if_neg hc']
        exact parseFloatCore_pyLower (c :: rest)

/-- C6: normalization is invariant under leading/trailing whitespace and
letter case — for every raw text value, both `coerce_score` and
`map_score` give the same result on the value and on its stripped,
lowercased form (so normalizing `" Good "` and `"good"` agree). -/
theorem C6_case_whitespace_insensitive :
    ∀ (v : PyStr) (c : PyStr),
      coerce_score (some v) = coerce_score (some (pyLower (pyStrip v))) ∧
      map_score (some v) c = map_score (some (pyLower (pyStrip v))) c := by
  intro v c
  have hkey : pyStrip (pyLower (pyStrip v)) = pyLower (pyStrip v) := by
    rw [pyStrip_pyLower, pyStrip_idem]
  constructor
  · simp only [coerce_score]
    rw [hkey, parseFloat?_pyLower, pyLower_pyLower]
  · simp only [map_score]
    rw [hkey, pyLower_pyLower]

/-- Whittling a lowercased string down to a single low code point pins the
original string. -/
theorem pyLower_eq_singleton {w : PyStr} {d : Nat} (hd : d < 65)
    (h : pyLower w = [d]) : w = [d] := by
  unfold pyLower at h
  cases w with
  | nil => simp at h
  | cons a t =>
    simp only [List.map_cons, List.cons.injEq] at h
    obtain ⟨h1, h2⟩ := h
    have ht : t = [] := by simpa using h2
    have ha : a = d := (lowerChar_eq_low hd).mp h1
    rw [ha, ht]

/-- C10: the numeric parse is attempted before the text lookup, so the
strings `"1"`, `"2"`, `"3"` always resolve on the clamped numeric path;
consequently the digit entries of the three label sets and the trailing
digit-fallback loop of `coerce_score` are unreachable: removing them
(`coerce_score_reduced`) changes the result on no input. -/
theorem C10_digit_paths_unreachable :
    parseFloat? (pystr "1") = some ⟨1, 1⟩ ∧
    parseFloat? (pystr "2") = some ⟨2, 1⟩ ∧
    parseFloat? (pystr "3") = some ⟨3, 1⟩ ∧
    ∀ (val : Option PyStr), coerce_score val = coerce_score_reduced val := by
  refine ⟨by decide, by decide, by decide, ?_⟩
  intro val
  cases val with
  | none => rfl
  | some raw =>
    cases hp : parseFloat? (pyStrip raw) with
    | some p => simp only [coerce_score, coerce_score_reduced, hp]
    | none =>
      simp only [coerce_score, coerce_score_reduced, hp]
      have hne49 : pyLower (pyStrip raw) ≠ [49] := by
        intro h
        rw [pyLower_eq_singleton (by norm_num) h] at hp
        exact absurd hp (by decide)
      have hne50 : pyLower (pyStrip raw) ≠ [50] := by
        intro h
        rw [pyLower_eq_singleton (by norm_num) h] at hp
        exact absurd hp (by decide)
      have hne51 : pyLower (pyStrip raw) ≠ [51] := by
        intro h
        rw [pyLower_eq_singleton (by norm_num) h] at hp
        exact absurd hp (by decide)
      have e3 : (pyLower (pyStrip raw) ∈ map3) ↔ (pyLower (pyStrip raw) ∈ map3.tail) := by
        rw [show map3 = pystr "3" :: map3.tail from rfl, List.mem_cons]
        have h3 : pyLower (pyStrip raw) ≠ pystr "3" := hne51
        simp [h3]
      have e2 : (pyLower (pyStrip raw) ∈ map2) ↔ (pyLower (pyStrip raw) ∈ map2.tail) := by
        rw [show map2 = pystr "2" :: map2.tail from rfl, List.mem_cons]
        have h2 : pyLower (pyStrip raw) ≠ pystr "2" := hne50
        simp [h2]
      have e1 : (pyLower (pyStrip raw) ∈ map1) ↔ (pyLower (pyStrip raw) ∈ map1.tail) := by
        rw [show map1 = pystr "1" :: map1.tail from rfl, List.mem_cons]
        have h1 : pyLower (pyStrip raw) ≠ pystr "1" := hne49
        simp [h1]
      have f1 : (pyLower (pyStrip raw) = pystr "1") ↔ False := iff_false_intro hne49
      have f2 : (pyLower (pyStrip raw) = pystr "2") ↔ False := iff_false_intro hne50
      have f3 : (pyLower (pyStrip raw) = pystr "3") ↔ False := iff_false_intro hne51
      simp only [e3, e2, e1, f1, f2, f3, if_false]

/-! ### Stable sorting by date: the ascending side -/

theorem mem_insertAsc {x z : CRow} {s : List CRow} :
    z ∈ insertAsc x s ↔ z = x ∨ z ∈ s := by
  induction s with
  | nil => simp [insertAsc]
  | cons y ys ih =>
    rw [insertAsc]
    split_ifs with h
    · simp [List.mem_cons]
    · rw [List.mem_cons, ih, List.mem_cons]
      tauto

theorem insertAsc_ne_nil (x : CRow) (s : List CRow) : insertAsc x s ≠ [] := by
  cases s with
  | nil => simp [insertAsc]
  | cons y ys =>
    rw [insertAsc]
    split_ifs <;> simp

theorem insertAsc_pairwise {x : CRow} {s : List CRow}
    (hs : s.Pairwise (fun a b => a.date ≤ b.date)) :
    (insertAsc x s).Pairwise (fun a b => a.date ≤ b.date) := by
  induction s with
  | nil => simp [insertAsc]
  | cons y ys ih =>
    obtain ⟨hy, hys⟩ := List.pairwise_cons.mp hs
    rw [insertAsc]
    split_ifs with h
    · rw [List.pairwise_cons]
      refine ⟨?_, hs⟩
      intro z hz
      rcases List.mem_cons.mp hz with rfl | hz'
      · exact h
      · exact le_trans h (hy z hz')
    · rw [List.pairwise_cons]
      refine ⟨?_, ih hys⟩
      intro z hz
      rcases mem_insertAsc.mp hz with rfl | hz'
      · omega
      · exact hy z hz'

theorem sortAscDate_pairwise (l : List CRow) :
    (sortAscDate l).Pairwise (fun a b => a.date ≤ b.date) := by
  induction l with
  | nil => simp [sortAscDate]
  | cons r rs ih => exact insertAsc_pairwise ih

theorem mem_sortAscDate {z : CRow} {l : List CRow} :
    z ∈ sortAscDate l ↔ z ∈ l := by
  induction l with
  | nil => simp [sortAscDate]
  | cons r rs ih => rw [sortAscDate, mem_insertAsc, ih, List.mem_cons]

theorem sortAscDate_eq_nil_iff {l : List CRow} : sortAscDate l = [] ↔ l = [] := by
  cases l with
  | nil => simp [sortAscDate]
  | cons r rs =>
    simp only [sortAscDate]
    constructor
    · intro h
      exact absurd h (insertAsc_ne_nil _ _)
    · intro h
      exact absurd h (by simp)

theorem insertAsc_eq_cons {x : CRow} {s : List CRow}
    (h : ∀ z ∈ s, x.date ≤ z.date) : insertAsc x s = x :: s := by
  cases s with
  | nil => rfl
  | cons y ys =>
    rw [insertAsc, if_pos (h y (List.mem_cons_self _ _))]

theorem filter_insertAsc (p : CRow → Bool) {x : CRow} {s : List CRow}
    (hs : s.Pairwise (fun a b => a.date ≤ b.date)) :
    (insertAsc x s).filter p
      = if p x then insertAsc x (s.filter p) else s.filter p := by
  induction s with
  | nil =>
    show List.filter p [x]
        = if p x = true then insertAsc x (List.filter p []) else List.filter p []
    rw [List.filter_cons, List.filter_nil]
    rfl
  | cons y ys ih =>
    obtain ⟨hy, hys⟩ := List.pairwise_cons.mp hs
    by_cases hxy : x.date ≤ y.date
    · rw [insertAsc, if_pos hxy, List.filter_cons]
      cases hp : p x with
      | false =>
        rw [if_neg (by simp [hp]), if_neg (by simp [hp])]
      | true =>
        rw [if_pos (by simp [hp]), if_pos (by simp [hp])]
        rw [insertAsc_eq_cons]
        intro z hz
        have hz' := List.mem_of_mem_filter hz
        rcases List.mem_cons.mp hz' with rfl | hz''
        · exact hxy
        · exact le_trans hxy (hy z hz'')
    · rw [insertAsc, if_neg hxy, List.filter_cons, ih hys, List.filter_cons]
      have hstep : insertAsc x (y :: ys.filter p) = y :: insertAsc x (ys.filter p) := by
        rw [insertAsc, if_neg hxy]
      cases hpy : p y <;> cases hpx : p x <;> simp [hstep]

theorem sortAscDate_filter (p : CRow → Bool) (l : List CRow) :
    (sortAscDate l).filter p = sortAscDate (l.filter p) := by
  induction l with
  | nil => rfl
  | cons r rs ih =>
    rw [sortAscDate, filter_insertAsc p (sortAscDate_pairwise rs), ih,
      List.filter_cons]
    cases hp : p r with
    | true => simp [sortAscDate]
    | false => simp

theorem getLast?_cons_ne_nil {a : CRow} {t : List CRow} (h : t ≠ []) :
    (a :: t).getLast? = t.getLast? := by
  cases t with
  | nil => exact absurd rfl h
  | cons b t' => exact List.getLast?_cons_cons

theorem getLast?_insertAsc {x : CRow} {s : List CRow}
    (hs : s.Pairwise (fun a b => a.date ≤ b.date)) :
    (insertAsc x s).getLast? =
      match s.getLast? with
      | none => some x
      | some y => if y.date < x.date then some x else some y := by
  induction s with
  | nil => rfl
  | cons y ys ih =>
    obtain ⟨hy, hys⟩ := List.pairwise_cons.mp hs
    rw [insertAsc]
    split_ifs with hxy
    · rw [getLast?_cons_ne_nil (by simp)]
      obtain ⟨z, hz⟩ := Option.isSome_iff_exists.mp
        (List.getLast?_isSome.mpr (by simp : (y :: ys) ≠ ([] : List CRow)))
      rw [hz]
      have hzmem : z ∈ y :: ys := List.mem_of_getLast?_eq_some hz
      have hxz : x.date ≤ z.date := by
        rcases List.mem_cons.mp hzmem with rfl | hz'
        · exact hxy
        · exact le_trans hxy (hy z hz')
      show some z = if z.date < x.date then some x else some z
      rw [if_neg (by omega)]
    · rw [getLast?_cons_ne_nil (insertAsc_ne_nil x ys), ih hys]
      cases hys' : ys.getLast? with
      | none =>
        have hysnil : ys = [] := by
          cases ys with
          | nil => rfl
          | cons b t => simp [List.getLast?_isSome] at hys'
        subst hysnil
        simp only [List.getLast?_singleton]
        show some x = if y.date < x.date then some x else some y
        rw [if_pos (by omega)]
      | some z =>
        have hysne : ys ≠ [] := by
          intro h
          rw [h] at hys'
          exact Option.noConfusion hys'
        rw [getLast?_cons_ne_nil hysne, hys']

/-! ### The maximum date of a record list -/

theorem maxDate?_eq_none_iff {m : List CRow} : maxDate? m = none ↔ m = [] := by
  cases m with
  | nil => simp [maxDate?]
  | cons r rs =>
    simp only [maxDate?]
    cases maxDate? rs <;> simp

theorem maxDate?_ub {m : List CRow} {d : Int} (h : maxDate? m = some d) :
    ∀ z ∈ m, z.date ≤ d := by
  induction m generalizing d with
  | nil =>
    intro z hz
    simp at hz
  | cons r rs ih =>
    intro z hz
    rw [maxDate?] at h
    cases hm : maxDate? rs with
    | none =>
      rw [hm] at h
      cases h
      have hnil : rs = [] := maxDate?_eq_none_iff.mp hm
      subst hnil
      rcases List.mem_cons.mp hz with rfl | hz'
      · exact le_refl _
      · simp at hz'
    | some d' =>
      rw [hm] at h
      cases h
      rcases List.mem_cons.mp hz with rfl | hz'
      · exact le_max_left _ _
      · exact le_trans (ih hm z hz') (le_max_right _ _)

theorem maxDate?_attained {m : List CRow} {d : Int} (h : maxDate? m = some d) :
    ∃ z ∈ m, z.date = d := by
  induction m generalizing d with
  | nil => simp [maxDate?] at h
  | cons r rs ih =>
    rw [maxDate?] at h
    cases hm : maxDate? rs with
    | none =>
      rw [hm] at h
      cases h
      exact ⟨r, List.mem_cons_self _ _, rfl⟩
    | some d' =>
      rw [hm] at h
      cases h
      by_cases hc : d' ≤ r.date
      · exact ⟨r, List.mem_cons_self _ _, (max_eq_left hc).symm⟩
      · obtain ⟨z, hz, hzd⟩ := ih hm
        refine ⟨z, List.mem_cons_of_mem _ hz, ?_⟩
        rw [hzd]
        exact (max_eq_right (by omega)).symm

theorem lastAmongMax_eq_of_max {m : List CRow} {d : Int}
    (h : maxDate? m = some d) :
    lastAmongMax m = (m.filter (fun z => z.date = d)).getLast? := by
  unfold lastAmongMax
  rw [h]

theorem firstAmongMax_eq_of_max {m : List CRow} {d : Int}
    (h : maxDate? m = some d) :
    firstAmongMax m = (m.filter (fun z => z.date = d)).head? := by
  unfold firstAmongMax
  rw [h]

/-- The last element of the stable ascending sort is the last record in
input order among those of maximum date. -/
theorem sortAscDate_getLast?_eq (m : List CRow) :
    (sortAscDate m).getLast? = lastAmongMax m := by
  induction m with
  | nil => rfl
  | cons r rs ih =>
    rw [show sortAscDate (r :: rs) = insertAsc r (sortAscDate rs) from rfl,
      getLast?_insertAsc (sortAscDate_pairwise rs), ih]
    cases rs with
    | nil =>
      show some r = lastAmongMax [r]
      simp [lastAmongMax, maxDate?, List.filter_cons]
    | cons r' rs' =>
      obtain ⟨d, hd⟩ : ∃ d, maxDate? (r' :: rs') = some d := by
        cases h : maxDate? (r' :: rs') with
        | some d => exact ⟨d, rfl⟩
        | none => exact absurd (maxDate?_eq_none_iff.mp h) (by simp)
      have hfil : (r' :: rs').filter (fun z => z.date = d) ≠ [] := by
        obtain ⟨z, hz, hzd⟩ := maxDate?_attained hd
        intro hnil
        rw [List.filter_eq_nil_iff] at hnil
        exact hnil z hz (by simp [hzd])
      obtain ⟨y, hy⟩ : ∃ y,
          ((r' :: rs').filter (fun z => z.date = d)).getLast? = some y :=
        Option.isSome_iff_exists.mp (List.getLast?_isSome.mpr hfil)
      have hylast : lastAmongMax (r' :: rs') = some y := by
        rw [lastAmongMax_eq_of_max hd, hy]
      have hymem := List.mem_of_getLast?_eq_some hy
      have hyd : y.date = d := by
        have := (List.mem_filter.mp hymem).2
        simpa using this
      rw [hylast]
      show (if y.date < r.date then some r else some y)
          = lastAmongMax (r :: r' :: rs')
      have hmax : maxDate? (r :: r' :: rs') = some (max r.date d) := by
        rw [maxDate?, hd]
      by_cases hlt : d < r.date
      · rw [if_pos (by omega), lastAmongMax_eq_of_max hmax,
          max_eq_left (by omega)]
        have hfn : (r' :: rs').filter (fun z => z.date = r.date) = [] := by
          rw [List.filter_eq_nil_iff]
          intro z hz
          have := maxDate?_ub hd z hz
          simp only [decide_eq_true_eq]
          omega
        rw [List.filter_cons, if_pos (by simp), hfn]
        simp
      · rw [if_neg (by omega), lastAmongMax_eq_of_max hmax,
          max_eq_right (by omega), List.filter_cons]
        by_cases hrd : r.date = d
        · rw [if_pos (by simp [hrd]), getLast?_cons_ne_nil hfil, hy]
        · rw [if_neg (by simp [hrd]), hy]

/-! ### Stable sorting by date: the descending side -/

theorem mem_insertDesc {x z : CRow} {s : List CRow} :
    z ∈ insertDesc x s ↔ z = x ∨ z ∈ s := by
  induction s with
  | nil => simp [insertDesc]
  | cons y ys ih =>
    rw [insertDesc]
    split_ifs with h
    · simp [List.mem_cons]
    · rw [List.mem_cons, ih, List.mem_cons]
      tauto

theorem insertDesc_pairwise {x : CRow} {s : List CRow}
    (hs : s.Pairwise (fun a b => b.date ≤ a.date)) :
    (insertDesc x s).Pairwise (fun a b => b.date ≤ a.date) := by
  induction s with
  | nil => simp [insertDesc]
  | cons y ys ih =>
    obtain ⟨hy, hys⟩ := List.pairwise_cons.mp hs
    rw [insertDesc]
    split_ifs with h
    · rw [List.pairwise_cons]
      refine ⟨?_, hs⟩
      intro z hz
      rcases List.mem_cons.mp hz with rfl | hz'
      · exact h
      · exact le_trans (hy z hz') h
    · rw [List.pairwise_cons]
      refine ⟨?_, ih hys⟩
      intro z hz
      rcases mem_insertDesc.mp hz with rfl | hz'
      · omega
      · exact hy z hz'

theorem sortDescDate_pairwise (l : List CRow) :
    (sortDescDate l).Pairwise (fun a b => b.date ≤ a.date) := by
  induction l with
  | nil => simp [sortDescDate]
  | cons r rs ih => exact insertDesc_pairwise ih

theorem insertDesc_eq_cons {x : CRow} {s : List CRow}
    (h : ∀ z ∈ s, z.date ≤ x.date) : insertDesc x s = x :: s := by
  cases s with
  | nil => rfl
  | cons y ys =>
    rw [insertDesc, if_pos (h y (List.mem_cons_self _ _))]

theorem filter_insertDesc (p : CRow → Bool) {x : CRow} {s : List CRow}
    (hs : s.Pairwise (fun a b => b.date ≤ a.date)) :
    (insertDesc x s).filter p
      = if p x then insertDesc x (s.filter p) else s.filter p := by
  induction s with
  | nil =>
    show List.filter p [x]
        = if p x = true then insertDesc x (List.filter p []) else List.filter p []
    rw [List.filter_cons, List.filter_nil]
    rfl
  | cons y ys ih =>
    obtain ⟨hy, hys⟩ := List.pairwise_cons.mp hs
    by_cases hxy : y.date ≤ x.date
    · rw [insertDesc, if_pos hxy, List.filter_cons]
      cases hp : p x with
      | false =>
        rw [if_neg (by simp [hp]), if_neg (by simp [hp])]
      | true =>
        rw [if_pos (by simp [hp]), if_pos (by simp [hp])]
        rw [insertDesc_eq_cons]
        intro z hz
        have hz' := List.mem_of_mem_filter hz
        rcases List.mem_cons.mp hz' with rfl | hz''
        · exact hxy
        · exact le_trans (hy z hz'') hxy
    · rw [insertDesc, if_neg hxy, List.filter_cons, ih hys, List.filter_cons]
      have hstep : insertDesc x (y :: ys.filter p)
          = y :: insertDesc x (ys.filter p) := by
        rw [insertDesc, if_neg hxy]
      cases hpy : p y <;> cases hpx : p x <;> simp [hstep]

theorem sortDescDate_filter (p : CRow → Bool) (l : List CRow) :
    (sortDescDate l).filter p = sortDescDate (l.filter p) := by
  induction l with
  | nil => rfl
  | cons r rs ih =>
    rw [sortDescDate, filter_insertDesc p (sortDescDate_pairwise rs), ih,
      List.filter_cons]
    cases hp : p r with
    | true => simp [sortDescDate]
    | false => simp

theorem head?_insertDesc (x : CRow) (s : List CRow) :
    (insertDesc x s).head? =
      match s.head? with
      | none => some x
      | some y => if y.date ≤ x.date then some x else some y := by
  cases s with
  | nil => rfl
  | cons y ys =>
    rw [insertDesc]
    by_cases h : y.date ≤ x.date
    · rw [if_pos h]
      show some x = if y.date ≤ x.date then some x else some y
      rw [if_pos h]
    · rw [if_neg h]
      show some y = if y.date ≤ x.date then some x else some y
      rw [if_neg h]

/-- The head of the stable descending sort is the first record in input
order among those of maximum date. -/
theorem sortDescDate_head?_eq (m : List CRow) :
    (sortDescDate m).head? = firstAmongMax m := by
  induction m with
  | nil => rfl
  | cons r rs ih =>
    rw [show sortDescDate (r :: rs) = insertDesc r (sortDescDate rs) from rfl,
      head?_insertDesc, ih]
    cases rs with
    | nil =>
      show some r = firstAmongMax [r]
      simp [firstAmongMax, maxDate?, List.filter_cons]
    | cons r' rs' =>
      obtain ⟨d, hd⟩ : ∃ d, maxDate? (r' :: rs') = some d := by
        cases h : maxDate? (r' :: rs') with
        | some d => exact ⟨d, rfl⟩
        | none => exact absurd (maxDate?_eq_none_iff.mp h) (by simp)
      have hfil : (r' :: rs').filter (fun z => z.date = d) ≠ [] := by
        obtain ⟨z, hz, hzd⟩ := maxDate?_attained hd
        intro hnil
        rw [List.filter_eq_nil_iff] at hnil
        exact hnil z hz (by simp [hzd])
      obtain ⟨y, hy⟩ : ∃ y,
          ((r' :: rs').filter (fun z => z.date = d)).head? = some y := by
        cases hf : (r' :: rs').filter (fun z => z.date = d) with
        | nil => exact absurd hf hfil
        | cons a t => exact ⟨a, rfl⟩
      have hyfirst : firstAmongMax (r' :: rs') = some y := by
        rw [firstAmongMax_eq_of_max hd, hy]
      have hymem : y ∈ (r' :: rs').filter (fun z => z.date = d) := by
        cases hf : (r' :: rs').filter (fun z => z.date = d) with
        | nil => exact absurd hf hfil
        | cons a t =>
          rw [hf] at hy
          cases hy
          exact List.mem_cons_self _ _
      have hyd : y.date = d := by
        have := (List.mem_filter.mp hymem).2
        simpa using this
      rw [hyfirst]
      show (if y.date ≤ r.date then some r else some y)
          = firstAmongMax (r :: r' :: rs')
      have hmax : maxDate? (r :: r' :: rs') = some (max r.date d) := by
        rw [maxDate?, hd]
      by_cases hle : d ≤ r.date
      · rw [if_pos (by omega), firstAmongMax_eq_of_max hmax,
          max_eq_left (by omega), List.filter_cons, if_pos (by simp)]
        rfl
      · rw [if_neg (by omega), firstAmongMax_eq_of_max hmax,
          max_eq_right (by omega), List.filter_cons,
          if_neg (by simp only [decide_eq_true_eq]; omega), hy]

/-- C8 counterexample: two records for the same equipment with the same
(maximum) date.  The pie-chart selection
(`sort_values("DATE").groupby(...).last()`) keeps the record that comes
last in input order, but the detail selection
(`sort_values("DATE", ascending=False).drop_duplicates(keep="first")`)
keeps the one that comes first — so the kept record is not determined by
the single documented "keep the last record in input order" tie-break. -/
theorem C8_counterexample :
    latest_for_pie
        [⟨pystr "A", pystr "S", pystr "E", 5, 3⟩,
         ⟨pystr "A", pystr "S", pystr "E", 5, 1⟩] (pystr "E")
      = some ⟨pystr "A", pystr "S", pystr "E", 5, 1⟩ ∧
    detail_latest
        [⟨pystr "A", pystr "S", pystr "E", 5, 3⟩,
         ⟨pystr "A", pystr "S", pystr "E", 5, 1⟩] (pystr "E")
      = some ⟨pystr "A", pystr "S", pystr "E", 5, 3⟩ ∧
    (⟨pystr "A", pystr "S", pystr "E", 5, 3⟩ : CRow)
      ≠ ⟨pystr "A", pystr "S", pystr "E", 5, 1⟩ := by
  decide

/-- C8 (amended): each latest-per-equipment selection returns exactly one
record per equipment key present in the input, and that record carries the
maximum observation date for its key; but the tie-break between records
sharing the maximum date differs per view — under the stable model of the
sort, the pie-chart path keeps the last such record in input order, while
the detail path keeps the first (and the sorts actually use numpy's
default unstable quicksort, so even these tie-breaks are not contractual).
-/
theorem C8_amended_latest_selection :
    ∀ (rows : List CRow) (k : PyStr),
      ((latest_for_pie rows k).isSome
        ↔ k ∈ rows.map (fun r => r.equipment)) ∧
      latest_for_pie rows k
        = lastAmongMax (rows.filter (fun r => r.equipment = k)) ∧
      detail_latest rows k
        = firstAmongMax (rows.filter (fun r => r.equipment = k)) ∧
      (∀ r', latest_for_pie rows k = some r' →
        r' ∈ rows ∧ r'.equipment = k ∧
        ∀ r ∈ rows, r.equipment = k → r.date ≤ r'.date) := by
  intro rows k
  have hpie : latest_for_pie rows k
      = lastAmongMax (rows.filter (fun r => r.equipment = k)) := by
    unfold latest_for_pie
    rw [sortAscDate_filter, sortAscDate_getLast?_eq]
  have hdet : detail_latest rows k
      = firstAmongMax (rows.filter (fun r => r.equipment = k)) := by
    unfold detail_latest
    rw [sortDescDate_filter, sortDescDate_head?_eq]
  refine ⟨?_, hpie, hdet, ?_⟩
  · unfold latest_for_pie
    rw [sortAscDate_filter]
    rw [Option.isSome_iff_exists]
    constructor
    · rintro ⟨r', hr'⟩
      have hmem := List.mem_of_getLast?_eq_some hr'
      rw [mem_sortAscDate] at hmem
      obtain ⟨hrows, hpk⟩ := List.mem_filter.mp hmem
      exact List.mem_map.mpr ⟨r', hrows, by simpa using hpk⟩
    · intro hk
      obtain ⟨r, hr, hrk⟩ := List.mem_map.mp hk
      have hne : sortAscDate (rows.filter (fun r => r.equipment = k)) ≠ [] := by
        rw [Ne, sortAscDate_eq_nil_iff, List.filter_eq_nil_iff]
        push_neg
        exact ⟨r, hr, by simp [hrk]⟩
      exact Option.isSome_iff_exists.mp (List.getLast?_isSome.mpr hne)
  · intro r' hr'
    rw [hpie] at hr'
    set fl := rows.filter (fun r => r.equipment = k) with hfl
    cases hmd : maxDate? fl with
    | none =>
      rw [lastAmongMax, hmd] at hr'
      exact absurd hr' (by simp)
    | some d =>
      rw [lastAmongMax_eq_of_max hmd] at hr'
      have hmem := List.mem_of_getLast?_eq_some hr'
      have hmemfl := List.mem_of_mem_filter hmem
      have hrd : r'.date = d := by
        have := (List.mem_filter.mp hmem).2
        simpa using this
      obtain ⟨hrows, hpk⟩ := List.mem_filter.mp hmemfl
      refine ⟨hrows, by simpa using hpk, ?_⟩
      intro r hr hrk
      have hrfl : r ∈ fl := List.mem_filter.mpr ⟨hr, by simp [hrk]⟩
      rw [hrd]
      exact maxDate?_ub hmd r hrfl

/-- C8 witness: the maximum-date property of the kept record on a concrete
two-record frame. -/
theorem C8_witness :
    (⟨pystr "A", pystr "S", pystr "E", 6, 2⟩ : CRow)
        ∈ [(⟨pystr "A", pystr "S", pystr "E", 4, 1⟩ : CRow),
           ⟨pystr "A", pystr "S", pystr "E", 6, 2⟩] ∧
    (⟨pystr "A", pystr "S", pystr "E", 6, 2⟩ : CRow).equipment = pystr "E" ∧
    ∀ r ∈ [(⟨pystr "A", pystr "S", pystr "E", 4, 1⟩ : CRow),
           ⟨pystr "A", pystr "S", pystr "E", 6, 2⟩],
      r.equipment = pystr "E" →
      r.date ≤ (⟨pystr "A", pystr "S", pystr "E", 6, 2⟩ : CRow).date :=
  (C8_amended_latest_selection
      [⟨pystr "A", pystr "S", pystr "E", 4, 1⟩,
       ⟨pystr "A", pystr "S", pystr "E", 6, 2⟩] (pystr "E")).2.2.2
    ⟨pystr "A", pystr "S", pystr "E", 6, 2⟩ (by decide)

end Dash
